import Mathlib

/-!
Shallow embedding of the geometric frame-computation core of the
`Nazar0vIvan/linalg` repository (`linalg.h`, `linalg.cpp`) and proofs of the
specification claims about it.

Modelling conventions:
* `double` arithmetic is modelled by exact real arithmetic (`ℝ`).
* `Eigen::VectorXd` triples of equal length are modelled as functions
  `Fin n → ℝ` sharing the length `n` (Eigen aborts on mismatched sizes in
  the expressions `x.dot(y)` etc., so mismatched lengths have no defined
  C++ behaviour to embed).
* `U.colPivHouseholderQr().solve(V)`: in exact arithmetic, for invertible
  `U` the QR solve returns the unique solution of `U·P = V`; that unique
  solution is what `solve3` computes (by Cramer's rule).  For singular `U`
  Eigen returns an unspecified finite vector without reporting any error;
  `solve3` then returns the zero vector (Lean's division-by-zero
  convention).  No claim's verdict depends on the particular value
  returned for a singular system, only on the fact that a value is
  returned at all; this is noted again at each place where it matters.
* `Eigen::Vector3d::normalize()` divides by the Euclidean norm; on the
  zero vector Eigen produces NaN components while the embedding's
  division-by-zero convention produces the zero vector.  In both cases
  the result is not a unit vector, which is the only fact any claim
  depends on at that point.
-/

noncomputable section

namespace Linalg

/-- `Eigen::Vector3d`. -/
structure Vec3 where
  x : ℝ
  y : ℝ
  z : ℝ

instance : Zero Vec3 := ⟨⟨0, 0, 0⟩⟩
instance : Add Vec3 := ⟨fun u v => ⟨u.x + v.x, u.y + v.y, u.z + v.z⟩⟩
instance : Sub Vec3 := ⟨fun u v => ⟨u.x - v.x, u.y - v.y, u.z - v.z⟩⟩
instance : Neg Vec3 := ⟨fun v => ⟨-v.x, -v.y, -v.z⟩⟩
instance : SMul ℝ Vec3 := ⟨fun a v => ⟨a * v.x, a * v.y, a * v.z⟩⟩

/-- Eigen `u.dot(v)`. -/
def Vec3.dot (u v : Vec3) : ℝ := u.x * v.x + u.y * v.y + u.z * v.z

/-- Eigen `u.cross(v)`. -/
def Vec3.cross (u v : Vec3) : Vec3 :=
  ⟨u.y * v.z - u.z * v.y, u.z * v.x - u.x * v.z, u.x * v.y - u.y * v.x⟩

/-- Eigen `v.norm()`. -/
def Vec3.norm (v : Vec3) : ℝ := Real.sqrt (v.dot v)

/-- Eigen `v.normalized()` / `v.normalize()`: division by the norm
(`0/0 = 0` in the embedding where Eigen would produce NaN; in both cases
the result of normalizing the zero vector is not a unit vector). -/
def Vec3.normalize (v : Vec3) : Vec3 := (v.norm)⁻¹ • v

/-- 3x3 matrix of reals, indexed like `Eigen::Matrix3d`. -/
abbrev Mat3 := Fin 3 → Fin 3 → ℝ

/-- 4x4 matrix of reals, indexed like `Eigen::Matrix4d`. -/
abbrev Mat4 := Fin 4 → Fin 4 → ℝ

/-- Cofactor expansion of a 3x3 determinant. -/
def det3 (M : Mat3) : ℝ :=
  M 0 0 * (M 1 1 * M 2 2 - M 1 2 * M 2 1)
    - M 0 1 * (M 1 0 * M 2 2 - M 1 2 * M 2 0)
    + M 0 2 * (M 1 0 * M 2 1 - M 1 1 * M 2 0)

/-- Replace column `j` of `M` by `V`. -/
def replaceCol (M : Mat3) (j : Fin 3) (V : Fin 3 → ℝ) : Mat3 :=
  fun i k => if k = j then V i else M i k

/-- 3x3 matrix-vector product. -/
def mulVec3 (M : Mat3) (P : Fin 3 → ℝ) : Fin 3 → ℝ :=
  fun i => M i 0 * P 0 + M i 1 * P 1 + M i 2 * P 2

/-- `U.colPivHouseholderQr().solve(V)` in exact arithmetic: for invertible
`U` this is the unique solution of `U·P = V` (computed by Cramer's rule,
which agrees with the QR solve there); for singular `U` it is the zero
vector where Eigen returns an unspecified finite vector — in both
semantics a vector is returned and no error is reported. -/
def solve3 (U : Mat3) (V : Fin 3 → ℝ) : Fin 3 → ℝ :=
  fun j => det3 (replaceCol U j V) / det3 U

/-- The `Plane` struct of `linalg.h`. -/
structure Plane where
  A : ℝ
  B : ℝ
  C : ℝ
  D : ℝ
  AA : ℝ
  BB : ℝ
  DD : ℝ

/-- The normal-equations matrix `U` assembled in `pointsToPlane`. -/
def planeU {n : ℕ} (x y : Fin n → ℝ) : Mat3 :=
  ![![∑ i, x i * x i, ∑ i, x i * y i, ∑ i, x i],
    ![∑ i, x i * y i, ∑ i, y i * y i, ∑ i, y i],
    ![∑ i, x i, ∑ i, y i, (n : ℝ)]]

/-- The right-hand side `V` assembled in `pointsToPlane`. -/
def planeV {n : ℕ} (x y z : Fin n → ℝ) : Fin 3 → ℝ :=
  ![∑ i, x i * z i, ∑ i, y i * z i, ∑ i, z i]

/-- `pointsToPlane` of `linalg.cpp`: least-squares fit of
`z = AA·x + BB·y + DD`, then conversion to the unit-normal implicit form.
The function performs no input validation and always returns a `Plane`. -/
def pointsToPlane {n : ℕ} (x y z : Fin n → ℝ) : Plane :=
  let P := solve3 (planeU x y) (planeV x y z)
  let AA := P 0
  let BB := P 1
  let DD := P 2
  let C := Real.sqrt (1 / (AA * AA + BB * BB + 1))
  { A := -AA * C, B := -BB * C, C := C, D := -DD * C, AA := AA, BB := BB, DD := DD }

/-- The Vandermonde-style matrix assembled in `poly`. -/
def polyM (x0 x1 x2 : ℝ) : Mat3 :=
  ![![x0 * x0, x0, 1], ![x1 * x1, x1, 1], ![x2 * x2, x2, 1]]

/-- `poly` of `linalg.cpp`: the 3-point quadratic fit.  Always returns a
coefficient triple; no input validation, no error reporting. -/
def poly (x0 x1 x2 y0 y1 y2 : ℝ) : Fin 3 → ℝ :=
  solve3 (polyM x0 x1 x2) ![y0, y1, y2]

/-- The 4x4 identity matrix (`Eigen::Matrix4d::Identity()`). -/
def id4 : Mat4 :=
  ![![1, 0, 0, 0], ![0, 1, 0, 0], ![0, 0, 1, 0], ![0, 0, 0, 1]]

/-- The snap threshold `EPS = 1e-4` of `rotMatrix4x4`. -/
def EPS : ℝ := 1 / 10000

/-- The `unaryExpr` cleanup pass of `rotMatrix4x4`: every entry of
absolute value at most `EPS` is replaced by exactly `0`. -/
def snap (M : Mat4) : Mat4 :=
  fun i j => if |M i j| ≤ EPS then 0 else M i j

/-- Modelled from the spec: the standard right-handed rotation matrix
about the x-axis, for refinement comparison with `rotMatrix4x4`. -/
def specRotX (t : ℝ) : Mat4 :=
  ![![1, 0, 0, 0],
    ![0, Real.cos t, -Real.sin t, 0],
    ![0, Real.sin t, Real.cos t, 0],
    ![0, 0, 0, 1]]

/-- Modelled from the spec: the standard right-handed rotation matrix
about the y-axis. -/
def specRotY (t : ℝ) : Mat4 :=
  ![![Real.cos t, 0, Real.sin t, 0],
    ![0, 1, 0, 0],
    ![-Real.sin t, 0, Real.cos t, 0],
    ![0, 0, 0, 1]]

/-- Modelled from the spec: the standard right-handed rotation matrix
about the z-axis. -/
def specRotZ (t : ℝ) : Mat4 :=
  ![![Real.cos t, -Real.sin t, 0, 0],
    ![Real.sin t, Real.cos t, 0, 0],
    ![0, 0, 1, 0],
    ![0, 0, 0, 1]]

/-- The matrix built by the `switch` of `rotMatrix4x4` before the snap
pass: identity with the four trigonometric entries of the named axis set;
any unrecognized axis leaves the identity untouched. -/
def rotBase (ang : ℝ) (axis : Char) : Mat4 :=
  if axis = 'x' then
    ![![1, 0, 0, 0],
      ![0, Real.cos ang, -Real.sin ang, 0],
      ![0, Real.sin ang, Real.cos ang, 0],
      ![0, 0, 0, 1]]
  else if axis = 'y' then
    ![![Real.cos ang, 0, Real.sin ang, 0],
      ![0, 1, 0, 0],
      ![-Real.sin ang, 0, Real.cos ang, 0],
      ![0, 0, 0, 1]]
  else if axis = 'z' then
    ![![Real.cos ang, -Real.sin ang, 0, 0],
      ![Real.sin ang, Real.cos ang, 0, 0],
      ![0, 0, 1, 0],
      ![0, 0, 0, 1]]
  else id4

/-- `rotMatrix4x4` of `linalg.cpp`: degrees to radians, axis switch,
then the `EPS` snap pass. -/
def rotMatrix4x4 (angleDeg : ℝ) (axis : Char) : Mat4 :=
  snap (rotBase (angleDeg * Real.pi / 180) axis)

/-- `trMatrix4x4` of `linalg.cpp`: identity with the translation column
set to `delta`. -/
def trMatrix4x4 (delta : Vec3) : Mat4 :=
  ![![1, 0, 0, delta.x],
    ![0, 1, 0, delta.y],
    ![0, 0, 1, delta.z],
    ![0, 0, 0, 1]]

/-- The homogeneous pose assembled from columns `[t, b, n, p]`, as in the
`Frene` constructor and in `getBeltFrame`. -/
def poseMatrix (t b n p : Vec3) : Mat4 :=
  ![![t.x, b.x, n.x, p.x],
    ![t.y, b.y, n.y, p.y],
    ![t.z, b.z, n.z, p.z],
    ![0, 0, 0, 1]]

/-- Cofactor expansion of the determinant of the upper-left 3x3 rotation
block of a 4x4 pose. -/
def rotDet (M : Mat4) : ℝ :=
  M 0 0 * (M 1 1 * M 2 2 - M 1 2 * M 2 1)
    - M 0 1 * (M 1 0 * M 2 2 - M 1 2 * M 2 0)
    + M 0 2 * (M 1 0 * M 2 1 - M 1 1 * M 2 0)

/-- The `Frene` struct of `linalg.h`: triad plus origin. -/
structure Frene where
  t : Vec3
  b : Vec3
  n : Vec3
  p : Vec3

/-- The `transf` member assembled by the `Frene` constructor. -/
def Frene.transf (f : Frene) : Mat4 := poseMatrix f.t f.b f.n f.p

/-- The tangent computed by `getFreneByPoly`: quadratic through the x/y
components of the samples in the order `(u1, p0, u2)`, derivative at
`p0.x`, normalized, flipped when its x-component is negative. -/
def polyTanu (p0 u1 u2 : Vec3) : Vec3 :=
  let coef := poly u1.x p0.x u2.x u1.y p0.y u2.y
  let t0 := Vec3.normalize ⟨1, 2 * coef 0 * p0.x + coef 1, 0⟩
  if t0.x < 0 then -t0 else t0

/-- `getFreneByPoly` of `linalg.cpp`. -/
def getFreneByPoly (p0 u1 u2 v1 : Vec3) : Frene :=
  let tanu := polyTanu p0 u1 u2
  let tanv := Vec3.normalize (v1 - p0)
  let nrm := Vec3.normalize (Vec3.cross tanu tanv)
  let b := Vec3.normalize (Vec3.cross nrm tanu)
  ⟨tanu, b, nrm, p0⟩

/-- The radial unit normal of the circular Frenet builder. -/
def circN (pt0 ptc : Vec3) : Vec3 := Vec3.normalize (pt0 - ptc)

/-- The raw in-plane perpendicular `(-n.y, n.x, 0)` of the circular
Frenet builder, before normalization and sign fixing. -/
def circT0 (pt0 ptc : Vec3) : Vec3 :=
  ⟨-(circN pt0 ptc).y, (circN pt0 ptc).x, 0⟩

/-- Modelled from the spec: `getFreneByCirc` is declared in `linalg.h`
but its definition is absent from the sources.  Spec section 4.5: the
normal is the normalized radial vector `pt0 - ptc`; the in-plane tangent
is the perpendicular-in-XY `(-n.y, n.x, 0)`, sign-normalized so its
x-component is non-negative (normalized to unit length, as required by
the frame-orthonormality invariant of sections 3 and 8 and by analogy
with the 4.4 variant of which this is the constant-curvature special
case); the binormal is `normal × tangent`; the origin is `pt0`. -/
def getFreneByCirc (pt0 ptc : Vec3) : Frene :=
  let nrm := circN pt0 ptc
  let t1 := Vec3.normalize (circT0 pt0 ptc)
  let t := if t1.x < 0 then -t1 else t1
  ⟨t, Vec3.cross nrm t, nrm, pt0⟩

/-- The `Frame` record used by the body of `getBeltFrame`: the 6-vector
`[X,Y,Z,A,B,C]` and the full 4x4 pose.  (The header aliases `Frame` to a
bare 6-vector while the implementation file uses members `frame` and
`transform`; the record shape of the implementation is modelled.) -/
structure Frame where
  frame : Fin 6 → ℝ
  transform : Mat4

/-- `std::atan2 y x`, embedded as the argument of the complex number
`x + y·i` (same quadrant convention and range `(-π, π]`). -/
def atan2 (y x : ℝ) : ℝ := Complex.arg ⟨x, y⟩

/-- The normalized plane normal of `getBeltFrame`. -/
def beltN {n : ℕ} (x y z : Fin n → ℝ) : Vec3 :=
  let pl := pointsToPlane x y z
  Vec3.normalize ⟨pl.A, pl.B, pl.C⟩

/-- The helper axis of `getBeltFrame`: world X when `|n.x| < 0.9`, else
world Y. -/
def beltHelper {n : ℕ} (x y z : Fin n → ℝ) : Vec3 :=
  if |(beltN x y z).x| < 9 / 10 then ⟨1, 0, 0⟩ else ⟨0, 1, 0⟩

/-- The first tangent of `getBeltFrame`: the helper projected onto the
plane orthogonal to the normal, normalized, then negated. -/
def beltT2 {n : ℕ} (x y z : Fin n → ℝ) : Vec3 :=
  -(Vec3.normalize
      (beltHelper x y z - Vec3.dot (beltHelper x y z) (beltN x y z) • beltN x y z))

/-- The binormal of `getBeltFrame`: normalized `n × t`. -/
def beltB {n : ℕ} (x y z : Fin n → ℝ) : Vec3 :=
  Vec3.normalize (Vec3.cross (beltN x y z) (beltT2 x y z))

/-- The final tangent of `getBeltFrame`, re-derived as `b × n`. -/
def beltT {n : ℕ} (x y z : Fin n → ℝ) : Vec3 :=
  Vec3.cross (beltB x y z) (beltN x y z)

/-- `getBeltFrame` of `linalg.cpp`: plane fit, frame orthonormalization,
pose assembly and Euler extraction. -/
def getBeltFrame (o : Vec3) {n : ℕ} (x y z : Fin n → ℝ) : Frame :=
  let T := poseMatrix (beltT x y z) (beltB x y z) (beltN x y z) o
  let A := atan2 (T 1 0) (T 0 0) * (180 / Real.pi)
  let B := Real.arcsin (-(T 2 0)) * (180 / Real.pi)
  let C := atan2 (T 2 1) (T 2 2) * (180 / Real.pi)
  ⟨![o.x, o.y, o.z, A, B, C], T⟩

/-- Exact orthonormality of a triad: unit lengths and vanishing pairwise
dot products. -/
def orthonormalTriad (t b n : Vec3) : Prop :=
  Vec3.dot t t = 1 ∧ Vec3.dot b b = 1 ∧ Vec3.dot n n = 1 ∧
    Vec3.dot t b = 0 ∧ Vec3.dot t n = 0 ∧ Vec3.dot b n = 0

/-! Componentwise simp lemmas for the vector operations. -/

@[simp] theorem Vec3.zero_x : (0 : Vec3).x = 0 := rfl
@[simp] theorem Vec3.zero_y : (0 : Vec3).y = 0 := rfl
@[simp] theorem Vec3.zero_z : (0 : Vec3).z = 0 := rfl
@[simp] theorem Vec3.add_x (u v : Vec3) : (u + v).x = u.x + v.x := rfl
@[simp] theorem Vec3.add_y (u v : Vec3) : (u + v).y = u.y + v.y := rfl
@[simp] theorem Vec3.add_z (u v : Vec3) : (u + v).z = u.z + v.z := rfl
@[simp] theorem Vec3.sub_x (u v : Vec3) : (u - v).x = u.x - v.x := rfl
@[simp] theorem Vec3.sub_y (u v : Vec3) : (u - v).y = u.y - v.y := rfl
@[simp] theorem Vec3.sub_z (u v : Vec3) : (u - v).z = u.z - v.z := rfl
@[simp] theorem Vec3.neg_x (v : Vec3) : (-v).x = -v.x := rfl
@[simp] theorem Vec3.neg_y (v : Vec3) : (-v).y = -v.y := rfl
@[simp] theorem Vec3.neg_z (v : Vec3) : (-v).z = -v.z := rfl
@[simp] theorem Vec3.smul_x (a : ℝ) (v : Vec3) : (a • v).x = a * v.x := rfl
@[simp] theorem Vec3.smul_y (a : ℝ) (v : Vec3) : (a • v).y = a * v.y := rfl
@[simp] theorem Vec3.smul_z (a : ℝ) (v : Vec3) : (a • v).z = a * v.z := rfl
@[simp] theorem Vec3.mk_x (a b c : ℝ) : (Vec3.mk a b c).x = a := rfl
@[simp] theorem Vec3.mk_y (a b c : ℝ) : (Vec3.mk a b c).y = b := rfl
@[simp] theorem Vec3.mk_z (a b c : ℝ) : (Vec3.mk a b c).z = c := rfl

theorem Vec3.ext_comp {u v : Vec3} (hx : u.x = v.x) (hy : u.y = v.y)
    (hz : u.z = v.z) : u = v := by
  cases u; cases v; simp_all

/-! Basic facts about dot, cross, norm and normalize. -/

theorem Vec3.dot_self_nonneg (v : Vec3) : 0 ≤ v.dot v := by
  simp only [Vec3.dot]
  nlinarith [sq_nonneg v.x, sq_nonneg v.y, sq_nonneg v.z]

theorem Vec3.dot_self_eq_zero {v : Vec3} (h : v.dot v = 0) : v = 0 := by
  simp only [Vec3.dot] at h
  refine Vec3.ext_comp ?_ ?_ ?_ <;> simp <;> nlinarith [sq_nonneg v.x, sq_nonneg v.y, sq_nonneg v.z]

theorem Vec3.dot_self_pos {v : Vec3} (h : v ≠ 0) : 0 < v.dot v := by
  rcases lt_or_eq_of_le (Vec3.dot_self_nonneg v) with hlt | heq
  · exact hlt
  · exact absurd (Vec3.dot_self_eq_zero heq.symm) h

theorem Vec3.norm_sq {v : Vec3} : v.norm ^ 2 = v.dot v :=
  Real.sq_sqrt (Vec3.dot_self_nonneg v)

theorem Vec3.dot_smul_smul (a b : ℝ) (u v : Vec3) :
    Vec3.dot (a • u) (b • v) = a * b * Vec3.dot u v := by
  simp [Vec3.dot]; ring

theorem Vec3.dot_smul_left (a : ℝ) (u v : Vec3) :
    Vec3.dot (a • u) v = a * Vec3.dot u v := by
  simp [Vec3.dot]; ring

theorem Vec3.dot_comm (u v : Vec3) : Vec3.dot u v = Vec3.dot v u := by
  simp [Vec3.dot]; ring

theorem Vec3.dot_neg_left (u v : Vec3) : Vec3.dot (-u) v = -Vec3.dot u v := by
  simp [Vec3.dot]; ring

theorem Vec3.dot_neg_right (u v : Vec3) : Vec3.dot u (-v) = -Vec3.dot u v := by
  simp [Vec3.dot]; ring

theorem Vec3.normalize_dot_self {v : Vec3} (h : v ≠ 0) :
    Vec3.dot v.normalize v.normalize = 1 := by
  have hd : 0 < v.dot v := Vec3.dot_self_pos h
  have hn : v.norm ^ 2 = v.dot v := Vec3.norm_sq
  rw [Vec3.normalize, Vec3.dot_smul_smul]
  have hnz : v.norm ≠ 0 := by
    intro h0
    rw [h0] at hn
    simp at hn
    exact absurd hn.symm (ne_of_gt hd)
  field_simp
  nlinarith [hn]

theorem Vec3.normalize_of_dot_one {v : Vec3} (h : v.dot v = 1) :
    v.normalize = v := by
  have : v.norm = 1 := by rw [Vec3.norm, h, Real.sqrt_one]
  rw [Vec3.normalize, this]
  refine Vec3.ext_comp ?_ ?_ ?_ <;> simp

theorem Vec3.dot_normalize_left (v w : Vec3) :
    Vec3.dot v.normalize w = (v.norm)⁻¹ * Vec3.dot v w := by
  rw [Vec3.normalize, Vec3.dot_smul_left]

theorem Vec3.cross_dot_left (u v : Vec3) : Vec3.dot (Vec3.cross u v) u = 0 := by
  simp [Vec3.dot, Vec3.cross]; ring

theorem Vec3.cross_dot_right (u v : Vec3) : Vec3.dot (Vec3.cross u v) v = 0 := by
  simp [Vec3.dot, Vec3.cross]; ring

theorem Vec3.lagrange (u v : Vec3) :
    Vec3.dot (Vec3.cross u v) (Vec3.cross u v)
      = Vec3.dot u u * Vec3.dot v v - Vec3.dot u v ^ 2 := by
  simp [Vec3.dot, Vec3.cross]; ring

theorem Vec3.cross_cross (u v w : Vec3) :
    Vec3.cross (Vec3.cross u v) w = Vec3.dot u w • v - Vec3.dot v w • u := by
  refine Vec3.ext_comp ?_ ?_ ?_ <;> simp [Vec3.dot, Vec3.cross] <;> ring

theorem rotDet_pose (t b n p : Vec3) :
    rotDet (poseMatrix t b n p) = Vec3.dot t (Vec3.cross b n) := by
  simp [rotDet, poseMatrix, Vec3.dot, Vec3.cross]
  ring

/-! Facts about the linear solve and the plane fitter. -/

/-- For an invertible system the Cramer solve returns the unique solution;
this is the exact-arithmetic behaviour of `colPivHouseholderQr().solve`. -/
theorem solve3_unique {U : Mat3} {P V : Fin 3 → ℝ} (hdet : det3 U ≠ 0)
    (h : mulVec3 U P = V) : solve3 U V = P := by
  subst h
  have e0 : solve3 U (mulVec3 U P) 0 = P 0 := by
    simp only [solve3]
    rw [div_eq_iff hdet]
    simp [det3, replaceCol, mulVec3]
    ring
  have e1 : solve3 U (mulVec3 U P) 1 = P 1 := by
    simp only [solve3]
    rw [div_eq_iff hdet]
    simp [det3, replaceCol, mulVec3]
    ring
  have e2 : solve3 U (mulVec3 U P) 2 = P 2 := by
    simp only [solve3]
    rw [div_eq_iff hdet]
    simp [det3, replaceCol, mulVec3]
    ring
  funext j
  fin_cases j
  · exact e0
  · exact e1
  · exact e2

/-- Unfolding of `pointsToPlane` into its solve and its derived fields. -/
theorem pointsToPlane_eq {n : ℕ} (x y z : Fin n → ℝ) :
    pointsToPlane x y z =
      { AA := solve3 (planeU x y) (planeV x y z) 0,
        BB := solve3 (planeU x y) (planeV x y z) 1,
        DD := solve3 (planeU x y) (planeV x y z) 2,
        C := Real.sqrt (1 / (solve3 (planeU x y) (planeV x y z) 0
              * solve3 (planeU x y) (planeV x y z) 0
              + solve3 (planeU x y) (planeV x y z) 1
              * solve3 (planeU x y) (planeV x y z) 1 + 1)),
        A := -solve3 (planeU x y) (planeV x y z) 0
              * Real.sqrt (1 / (solve3 (planeU x y) (planeV x y z) 0
                * solve3 (planeU x y) (planeV x y z) 0
                + solve3 (planeU x y) (planeV x y z) 1
                * solve3 (planeU x y) (planeV x y z) 1 + 1)),
        B := -solve3 (planeU x y) (planeV x y z) 1
              * Real.sqrt (1 / (solve3 (planeU x y) (planeV x y z) 0
                * solve3 (planeU x y) (planeV x y z) 0
                + solve3 (planeU x y) (planeV x y z) 1
                * solve3 (planeU x y) (planeV x y z) 1 + 1)),
        D := -solve3 (planeU x y) (planeV x y z) 2
              * Real.sqrt (1 / (solve3 (planeU x y) (planeV x y z) 0
                * solve3 (planeU x y) (planeV x y z) 0
                + solve3 (planeU x y) (planeV x y z) 1
                * solve3 (planeU x y) (planeV x y z) 1 + 1)) } := rfl

/-- Points lying exactly on `z = aa·x + bb·y + dd` make `(aa, bb, dd)` an
exact solution of the normal equations. -/
theorem plane_mulVec {n : ℕ} (x y z : Fin n → ℝ) (aa bb dd : ℝ)
    (hpl : ∀ i, z i = aa * x i + bb * y i + dd) :
    mulVec3 (planeU x y) ![aa, bb, dd] = planeV x y z := by
  have hx : ∑ i, x i * z i
      = aa * ∑ i, x i * x i + bb * ∑ i, x i * y i + dd * ∑ i, x i := by
    rw [Finset.mul_sum, Finset.mul_sum, Finset.mul_sum,
      ← Finset.sum_add_distrib, ← Finset.sum_add_distrib]
    exact Finset.sum_congr rfl fun i _ => by rw [hpl i]; ring
  have hy : ∑ i, y i * z i
      = aa * ∑ i, x i * y i + bb * ∑ i, y i * y i + dd * ∑ i, y i := by
    rw [Finset.mul_sum, Finset.mul_sum, Finset.mul_sum,
      ← Finset.sum_add_distrib, ← Finset.sum_add_distrib]
    exact Finset.sum_congr rfl fun i _ => by rw [hpl i]; ring
  have hz : ∑ i, z i = aa * ∑ i, x i + bb * ∑ i, y i + dd * (n : ℝ) := by
    have h : ∑ i, z i = ∑ i : Fin n, (aa * x i + bb * y i + dd) :=
      Finset.sum_congr rfl fun i _ => hpl i
    rw [h, Finset.sum_add_distrib, Finset.sum_add_distrib, ← Finset.mul_sum,
      ← Finset.mul_sum, Finset.sum_const, Finset.card_univ, Fintype.card_fin,
      nsmul_eq_mul]
    ring
  funext i
  fin_cases i <;> simp [mulVec3, planeU, planeV, hx, hy, hz] <;> ring

/-- Whatever the solve returned — also for degenerate input — the derived
implicit form is a unit normal with strictly positive `C`. -/
theorem pointsToPlane_unit {n : ℕ} (x y z : Fin n → ℝ) :
    0 < (pointsToPlane x y z).C ∧
      (pointsToPlane x y z).A ^ 2 + (pointsToPlane x y z).B ^ 2
        + (pointsToPlane x y z).C ^ 2 = 1 := by
  set AA := solve3 (planeU x y) (planeV x y z) 0 with hAAdef
  set BB := solve3 (planeU x y) (planeV x y z) 1 with hBBdef
  have hC : (pointsToPlane x y z).C = Real.sqrt (1 / (AA * AA + BB * BB + 1)) := rfl
  have hA : (pointsToPlane x y z).A = -AA * (pointsToPlane x y z).C := rfl
  have hB : (pointsToPlane x y z).B = -BB * (pointsToPlane x y z).C := rfl
  have hd : (0 : ℝ) < AA * AA + BB * BB + 1 := by
    nlinarith [mul_self_nonneg AA, mul_self_nonneg BB]
  have hCpos : 0 < (pointsToPlane x y z).C := by
    rw [hC]
    exact Real.sqrt_pos.mpr (by positivity)
  have hC2 : (pointsToPlane x y z).C ^ 2 = 1 / (AA * AA + BB * BB + 1) := by
    rw [hC]
    exact Real.sq_sqrt (by positivity)
  refine ⟨hCpos, ?_⟩
  rw [hA, hB]
  have hh : (-AA * (pointsToPlane x y z).C) ^ 2 + (-BB * (pointsToPlane x y z).C) ^ 2
      + (pointsToPlane x y z).C ^ 2
      = (AA * AA + BB * BB + 1) * (pointsToPlane x y z).C ^ 2 := by ring
  rw [hh, hC2]
  field_simp

/-! Claim C1. -/

/-- C1 counterexample: called with only two points — input the claim says
must be rejected with an error — `pointsToPlane` reports nothing and
returns a genuine `Plane` value whose implicit form is a unit normal with
`C > 0`.  (The normal-equations matrix of a 2-point call is always
singular; Eigen's QR solve returns an unspecified finite vector there
without any error report, and the embedding's solve returns the zero
vector; the conjunction proved here holds for every possible value of the
solve, so the verdict does not depend on that difference.) -/
theorem C1_counterexample :
    0 < (pointsToPlane ![0, 1] ![0, 0] ![5, 5]).C ∧
      (pointsToPlane ![0, 1] ![0, 0] ![5, 5]).A ^ 2
        + (pointsToPlane ![0, 1] ![0, 0] ![5, 5]).B ^ 2
        + (pointsToPlane ![0, 1] ![0, 0] ![5, 5]).C ^ 2 = 1 :=
  pointsToPlane_unit ![0, 1] ![0, 0] ![5, 5]

/-- C1 amended: neither fitter validates its input or reports an error.
`pointsToPlane` always returns a `Plane` — also with fewer than 3 points —
whose implicit form is a unit normal with `C > 0`; `poly` with two
coincident abscissae hands the solve a singular matrix (determinant
exactly 0) and still receives a coefficient triple back, since the QR
solve returns a vector instead of reporting an error. -/
theorem C1_amended :
    (∀ (n : ℕ) (x y z : Fin n → ℝ),
        0 < (pointsToPlane x y z).C ∧
          (pointsToPlane x y z).A ^ 2 + (pointsToPlane x y z).B ^ 2
            + (pointsToPlane x y z).C ^ 2 = 1) ∧
      (∀ x0 x2 y0 y1 y2 : ℝ,
        det3 (polyM x0 x0 x2) = 0 ∧
          poly x0 x0 x2 y0 y1 y2 = solve3 (polyM x0 x0 x2) ![y0, y1, y2]) := by
  refine ⟨fun n x y z => pointsToPlane_unit x y z, fun x0 x2 y0 y1 y2 => ⟨?_, rfl⟩⟩
  simp [det3, polyM]
  ring

/-! Claim C3 (proved before C2, whose statement builds on the same
implicit-form facts). -/

/-- C3: every `Plane` returned by `pointsToPlane` has
`C = sqrt(1/(AA² + BB² + 1))` strictly positive, `A = -AA·C`,
`B = -BB·C`, `D = -DD·C`, and consequently `A² + B² + C² = 1`. -/
theorem C3_implicit_form {n : ℕ} (x y z : Fin n → ℝ) :
    (pointsToPlane x y z).C
        = Real.sqrt (1 / ((pointsToPlane x y z).AA ^ 2
            + (pointsToPlane x y z).BB ^ 2 + 1)) ∧
      0 < (pointsToPlane x y z).C ∧
      (pointsToPlane x y z).A = -(pointsToPlane x y z).AA * (pointsToPlane x y z).C ∧
      (pointsToPlane x y z).B = -(pointsToPlane x y z).BB * (pointsToPlane x y z).C ∧
      (pointsToPlane x y z).D = -(pointsToPlane x y z).DD * (pointsToPlane x y z).C ∧
      (pointsToPlane x y z).A ^ 2 + (pointsToPlane x y z).B ^ 2
        + (pointsToPlane x y z).C ^ 2 = 1 := by
  obtain ⟨hpos, hunit⟩ := pointsToPlane_unit x y z
  refine ⟨?_, hpos, rfl, rfl, rfl, hunit⟩
  rw [pow_two, pow_two]
  exact rfl

/-! Claim C2. -/

/-- C2 counterexample: the three points `(2,0,0), (2,1,0), (2,0,1)` lie
exactly on the vertical plane `x = 2` (first three conjuncts: each point
satisfies `1·x + 0·y + 0·z - 2 = 0`), whose analytic unit normal is
`±(1,0,0)`.  The regression form `z = AA·x + BB·y + DD` cannot represent a
vertical plane: the xy-projections of the points are collinear, so the
normal-equations matrix is singular.  Eigen's QR solve then returns some
finite least-squares vector without reporting anything (the embedding's
solve returns the zero vector), and the returned unit normal is
`(0, 0, 1)` — not `±(1,0,0)` in any tolerance — while the third point
violates the implicit equation by a residual of exactly `1`. -/
theorem C2_counterexample :
    ((1 : ℝ) * 2 + 0 * 0 + 0 * 0 - 2 = 0) ∧
      ((1 : ℝ) * 2 + 0 * 1 + 0 * 0 - 2 = 0) ∧
      ((1 : ℝ) * 2 + 0 * 0 + 0 * 1 - 2 = 0) ∧
      (pointsToPlane ![2, 2, 2] ![0, 1, 0] ![0, 0, 1]).A = 0 ∧
      (pointsToPlane ![2, 2, 2] ![0, 1, 0] ![0, 0, 1]).B = 0 ∧
      (pointsToPlane ![2, 2, 2] ![0, 1, 0] ![0, 0, 1]).C = 1 ∧
      (pointsToPlane ![2, 2, 2] ![0, 1, 0] ![0, 0, 1]).A * 2
        + (pointsToPlane ![2, 2, 2] ![0, 1, 0] ![0, 0, 1]).B * 0
        + (pointsToPlane ![2, 2, 2] ![0, 1, 0] ![0, 0, 1]).C * 1
        + (pointsToPlane ![2, 2, 2] ![0, 1, 0] ![0, 0, 1]).D = 1 := by
  have hdet0 : det3 (planeU (![2, 2, 2] : Fin 3 → ℝ) ![0, 1, 0]) = 0 := by
    simp [det3, planeU, Fin.sum_univ_three, Matrix.vecHead, Matrix.vecTail]
    norm_num
  have hsolve : ∀ j, solve3 (planeU (![2, 2, 2] : Fin 3 → ℝ) ![0, 1, 0])
      (planeV ![2, 2, 2] ![0, 1, 0] ![0, 0, 1]) j = 0 := by
    intro j
    simp [solve3, hdet0]
  have hrec := pointsToPlane_eq (![2, 2, 2] : Fin 3 → ℝ) ![0, 1, 0] ![0, 0, 1]
  rw [hsolve 0, hsolve 1, hsolve 2] at hrec
  rw [hrec]
  norm_num [Real.sqrt_one]

/-- C2 amended: for at least 3 points lying exactly on a non-vertical
plane `z = aa·x + bb·y + dd` whose normal-equations matrix is invertible
(equivalently, whose xy-projections are not collinear), `pointsToPlane`
recovers exactly that plane: the regression coefficients are `(aa,bb,dd)`,
the returned unit normal equals the analytically known unit normal
`(aa,bb,-1)/‖(aa,bb,-1)‖` up to sign, and every input point satisfies the
implicit equation exactly. -/
theorem C2_amended {n : ℕ} (x y z : Fin n → ℝ) (aa bb dd : ℝ)
    (hpl : ∀ i, z i = aa * x i + bb * y i + dd)
    (hdet : det3 (planeU x y) ≠ 0) :
    (pointsToPlane x y z).AA = aa ∧ (pointsToPlane x y z).BB = bb ∧
      (pointsToPlane x y z).DD = dd ∧
      (pointsToPlane x y z).A = -(aa / Real.sqrt (aa ^ 2 + bb ^ 2 + 1)) ∧
      (pointsToPlane x y z).B = -(bb / Real.sqrt (aa ^ 2 + bb ^ 2 + 1)) ∧
      (pointsToPlane x y z).C = 1 / Real.sqrt (aa ^ 2 + bb ^ 2 + 1) ∧
      (∀ i, (pointsToPlane x y z).A * x i + (pointsToPlane x y z).B * y i
          + (pointsToPlane x y z).C * z i + (pointsToPlane x y z).D = 0) := by
  have hs : solve3 (planeU x y) (planeV x y z) = ![aa, bb, dd] :=
    solve3_unique hdet (plane_mulVec x y z aa bb dd hpl)
  have hrec := pointsToPlane_eq x y z
  rw [hs, show (![aa, bb, dd] : Fin 3 → ℝ) 0 = aa from rfl,
    show (![aa, bb, dd] : Fin 3 → ℝ) 1 = bb from rfl,
    show (![aa, bb, dd] : Fin 3 → ℝ) 2 = dd from rfl,
    show aa * aa + bb * bb + 1 = aa ^ 2 + bb ^ 2 + 1 from by ring,
    show Real.sqrt (1 / (aa ^ 2 + bb ^ 2 + 1)) = 1 / Real.sqrt (aa ^ 2 + bb ^ 2 + 1)
      from by rw [one_div, one_div, Real.sqrt_inv]] at hrec
  rw [hrec]
  refine ⟨rfl, rfl, rfl, by ring, by ring, rfl, ?_⟩
  intro i
  show -aa * (1 / Real.sqrt (aa ^ 2 + bb ^ 2 + 1)) * x i
      + -bb * (1 / Real.sqrt (aa ^ 2 + bb ^ 2 + 1)) * y i
      + 1 / Real.sqrt (aa ^ 2 + bb ^ 2 + 1) * z i
      + -dd * (1 / Real.sqrt (aa ^ 2 + bb ^ 2 + 1)) = 0
  rw [hpl i]
  ring

/-- C2 witness: the amended theorem applied to the three points
`(0,0,3), (1,0,4), (0,1,5)` of the plane `z = x + 2·y + 3`. -/
theorem C2_witness :
    det3 (planeU (![0, 1, 0] : Fin 3 → ℝ) ![0, 0, 1]) ≠ 0 ∧
      (pointsToPlane ![0, 1, 0] ![0, 0, 1] ![3, 4, 5]).AA = 1 ∧
      (pointsToPlane ![0, 1, 0] ![0, 0, 1] ![3, 4, 5]).BB = 2 ∧
      (pointsToPlane ![0, 1, 0] ![0, 0, 1] ![3, 4, 5]).DD = 3 ∧
      (pointsToPlane ![0, 1, 0] ![0, 0, 1] ![3, 4, 5]).A
          * (![0, 1, 0] : Fin 3 → ℝ) 0
        + (pointsToPlane ![0, 1, 0] ![0, 0, 1] ![3, 4, 5]).B
          * (![0, 0, 1] : Fin 3 → ℝ) 0
        + (pointsToPlane ![0, 1, 0] ![0, 0, 1] ![3, 4, 5]).C
          * (![3, 4, 5] : Fin 3 → ℝ) 0
        + (pointsToPlane ![0, 1, 0] ![0, 0, 1] ![3, 4, 5]).D = 0 := by
  have hpl : ∀ i : Fin 3, (![3, 4, 5] : Fin 3 → ℝ) i
      = 1 * (![0, 1, 0] : Fin 3 → ℝ) i + 2 * (![0, 0, 1] : Fin 3 → ℝ) i + 3 := by
    intro i
    fin_cases i <;> norm_num
  have hdet : det3 (planeU (![0, 1, 0] : Fin 3 → ℝ) ![0, 0, 1]) ≠ 0 := by
    simp [det3, planeU, Fin.sum_univ_three, Matrix.vecHead, Matrix.vecTail]
    norm_num
  obtain ⟨h1, h2, h3, h4, h5, h6, h7⟩ :=
    C2_amended ![0, 1, 0] ![0, 0, 1] ![3, 4, 5] 1 2 3 hpl hdet
  exact ⟨hdet, h1, h2, h3, h7 0⟩

/-! Further vector algebra used by the frame builders. -/

theorem Vec3.dot_sub_right (u v w : Vec3) :
    Vec3.dot u (v - w) = Vec3.dot u v - Vec3.dot u w := by
  simp [Vec3.dot]; ring

theorem Vec3.dot_smul_right (a : ℝ) (u v : Vec3) :
    Vec3.dot u (a • v) = a * Vec3.dot u v := by
  simp [Vec3.dot]; ring

theorem Vec3.dot_sub_smul (u v : Vec3) (a : ℝ) :
    Vec3.dot (u - a • v) (u - a • v)
      = Vec3.dot u u - 2 * a * Vec3.dot u v + a ^ 2 * Vec3.dot v v := by
  simp [Vec3.dot]; ring

theorem Vec3.flip_dot (v : Vec3) :
    Vec3.dot (if v.x < 0 then -v else v) (if v.x < 0 then -v else v)
      = Vec3.dot v v := by
  by_cases h : v.x < 0 <;> simp [h, Vec3.dot]

theorem Vec3.flip_dot_right (w v : Vec3) (h : Vec3.dot w v = 0) :
    Vec3.dot w (if v.x < 0 then -v else v) = 0 := by
  by_cases hc : v.x < 0 <;> simp [hc, Vec3.dot_neg_right, h]

theorem Vec3.dot_normalize_right (u v : Vec3) :
    Vec3.dot u v.normalize = (v.norm)⁻¹ * Vec3.dot u v := by
  rw [Vec3.normalize, Vec3.dot_smul_right]

/-- A unit tangent and a unit normal orthogonal to it generate the
orthonormal right-handed triad `(t, n × t, n)`, and the scalar triple
product giving its determinant is `1`. -/
theorem triad_std {t nv : Vec3} (ht : Vec3.dot t t = 1) (hn : Vec3.dot nv nv = 1)
    (hnt : Vec3.dot nv t = 0) :
    orthonormalTriad t (Vec3.cross nv t) nv ∧
      Vec3.dot t (Vec3.cross (Vec3.cross nv t) nv) = 1 := by
  have hbb : Vec3.dot (Vec3.cross nv t) (Vec3.cross nv t) = 1 := by
    rw [Vec3.lagrange, ht, hn, hnt]; norm_num
  have htb : Vec3.dot t (Vec3.cross nv t) = 0 := by
    rw [Vec3.dot_comm]; exact Vec3.cross_dot_right nv t
  have htn : Vec3.dot t nv = 0 := by rw [Vec3.dot_comm]; exact hnt
  have hbn : Vec3.dot (Vec3.cross nv t) nv = 0 := Vec3.cross_dot_left nv t
  refine ⟨⟨ht, hbb, hn, htb, htn, hbn⟩, ?_⟩
  rw [Vec3.cross_cross, hn, htn, Vec3.dot_sub_right, Vec3.dot_smul_right,
    Vec3.dot_smul_right, ht, htn]
  norm_num

/-- A unit binormal and a unit normal orthogonal to it generate the
orthonormal triad `(b × n, b, n)` with determinant `1`. -/
theorem triad_belt {b nv : Vec3} (hb : Vec3.dot b b = 1) (hn : Vec3.dot nv nv = 1)
    (hbn : Vec3.dot b nv = 0) :
    orthonormalTriad (Vec3.cross b nv) b nv ∧
      Vec3.dot (Vec3.cross b nv) (Vec3.cross b nv) = 1 := by
  have htt : Vec3.dot (Vec3.cross b nv) (Vec3.cross b nv) = 1 := by
    rw [Vec3.lagrange, hb, hn, hbn]; norm_num
  exact ⟨⟨htt, hb, hn, Vec3.cross_dot_left b nv, Vec3.cross_dot_right b nv, hbn⟩, htt⟩

/-! The belt-frame orthonormalization chain. -/

/-- The plane normal fed to `getBeltFrame` is already a unit vector
(for every input, degenerate ones included), so its normalization is a
unit vector. -/
theorem beltN_unit {n : ℕ} (x y z : Fin n → ℝ) :
    Vec3.dot (beltN x y z) (beltN x y z) = 1 := by
  obtain ⟨hpos, hunit⟩ := pointsToPlane_unit x y z
  have hdd : Vec3.dot (⟨(pointsToPlane x y z).A, (pointsToPlane x y z).B,
      (pointsToPlane x y z).C⟩ : Vec3)
      ⟨(pointsToPlane x y z).A, (pointsToPlane x y z).B, (pointsToPlane x y z).C⟩ = 1 := by
    simp [Vec3.dot]
    nlinarith [hunit]
  rw [beltN, Vec3.normalize_of_dot_one hdd]
  exact hdd

/-- The helper axis is a unit vector never parallel to the plane normal:
its projection coefficient is strictly smaller than 1 in absolute value. -/
theorem belt_helper_unit {n : ℕ} (x y z : Fin n → ℝ) :
    Vec3.dot (beltHelper x y z) (beltHelper x y z) = 1 ∧
      Vec3.dot (beltHelper x y z) (beltN x y z) ^ 2 < 1 := by
  have hnn := beltN_unit x y z
  simp only [Vec3.dot] at hnn
  by_cases hc : |(beltN x y z).x| < 9 / 10
  · have hh : beltHelper x y z = ⟨1, 0, 0⟩ := by rw [beltHelper, if_pos hc]
    rw [hh]
    constructor
    · simp [Vec3.dot]
    · have h1 : Vec3.dot (⟨1, 0, 0⟩ : Vec3) (beltN x y z) = (beltN x y z).x := by
        simp [Vec3.dot]
      rw [h1]
      have h3 : (beltN x y z).x ^ 2 < (9 / 10 : ℝ) ^ 2 := by
        have h2 : (0 : ℝ) ≤ |(beltN x y z).x| := abs_nonneg _
        nlinarith [sq_abs (beltN x y z).x]
      nlinarith
  · have hh : beltHelper x y z = ⟨0, 1, 0⟩ := by rw [beltHelper, if_neg hc]
    rw [hh]
    constructor
    · simp [Vec3.dot]
    · have h1 : Vec3.dot (⟨0, 1, 0⟩ : Vec3) (beltN x y z) = (beltN x y z).y := by
        simp [Vec3.dot]
      rw [h1]
      push_neg at hc
      have h2 : (81 / 100 : ℝ) ≤ (beltN x y z).x ^ 2 := by
        nlinarith [sq_abs (beltN x y z).x, abs_nonneg (beltN x y z).x]
      nlinarith [sq_nonneg (beltN x y z).y, sq_nonneg (beltN x y z).z]

/-- The projected helper has strictly positive squared length, so the
negated normalized projection is a unit vector orthogonal to the normal. -/
theorem belt_t2 {n : ℕ} (x y z : Fin n → ℝ) :
    Vec3.dot (beltT2 x y z) (beltT2 x y z) = 1 ∧
      Vec3.dot (beltN x y z) (beltT2 x y z) = 0 := by
  obtain ⟨hh1, hh2⟩ := belt_helper_unit x y z
  have hnn := beltN_unit x y z
  have hw : Vec3.dot
      (beltHelper x y z - Vec3.dot (beltHelper x y z) (beltN x y z) • beltN x y z)
      (beltHelper x y z - Vec3.dot (beltHelper x y z) (beltN x y z) • beltN x y z)
      = 1 - Vec3.dot (beltHelper x y z) (beltN x y z) ^ 2 := by
    rw [Vec3.dot_sub_smul, hh1, hnn]
    ring
  have hwpos : 0 < Vec3.dot
      (beltHelper x y z - Vec3.dot (beltHelper x y z) (beltN x y z) • beltN x y z)
      (beltHelper x y z - Vec3.dot (beltHelper x y z) (beltN x y z) • beltN x y z) := by
    rw [hw]; linarith
  have hwne : beltHelper x y z
      - Vec3.dot (beltHelper x y z) (beltN x y z) • beltN x y z ≠ 0 := by
    intro h0
    rw [h0] at hwpos
    simp [Vec3.dot] at hwpos
  have hnw : Vec3.dot (beltN x y z)
      (beltHelper x y z - Vec3.dot (beltHelper x y z) (beltN x y z) • beltN x y z) = 0 := by
    rw [Vec3.dot_sub_right, Vec3.dot_smul_right, hnn, Vec3.dot_comm]
    ring
  constructor
  · rw [beltT2, Vec3.dot_neg_left, Vec3.dot_neg_right, neg_neg]
    exact Vec3.normalize_dot_self hwne
  · rw [beltT2, Vec3.dot_neg_right, Vec3.dot_normalize_right, hnw]
    ring

/-- The binormal of the belt frame is exactly `n × t` (already unit, so
its normalization is the identity), unit, and orthogonal to the normal. -/
theorem belt_b {n : ℕ} (x y z : Fin n → ℝ) :
    beltB x y z = Vec3.cross (beltN x y z) (beltT2 x y z) ∧
      Vec3.dot (beltB x y z) (beltB x y z) = 1 ∧
      Vec3.dot (beltB x y z) (beltN x y z) = 0 := by
  obtain ⟨ht2, hnt2⟩ := belt_t2 x y z
  have hnn := beltN_unit x y z
  have hcr : Vec3.dot (Vec3.cross (beltN x y z) (beltT2 x y z))
      (Vec3.cross (beltN x y z) (beltT2 x y z)) = 1 := by
    rw [Vec3.lagrange, hnn, ht2, hnt2]
    norm_num
  have hb : beltB x y z = Vec3.cross (beltN x y z) (beltT2 x y z) := by
    rw [beltB, Vec3.normalize_of_dot_one hcr]
  refine ⟨hb, ?_, ?_⟩
  · rw [hb]; exact hcr
  · rw [hb]; exact Vec3.cross_dot_left _ _

/-- The belt frame triad is orthonormal with determinant 1 for every
input. -/
theorem beltFrame_orthonormal (o : Vec3) {n : ℕ} (x y z : Fin n → ℝ) :
    orthonormalTriad (beltT x y z) (beltB x y z) (beltN x y z) ∧
      rotDet (getBeltFrame o x y z).transform = 1 := by
  obtain ⟨hb, hbb, hbn⟩ := belt_b x y z
  have hnn := beltN_unit x y z
  obtain ⟨htriad, hdet⟩ := triad_belt hbb hnn hbn
  refine ⟨htriad, ?_⟩
  have htr : (getBeltFrame o x y z).transform
      = poseMatrix (beltT x y z) (beltB x y z) (beltN x y z) o := rfl
  rw [htr, rotDet_pose]
  exact hdet

/-! The polynomial Frenet builder. -/

/-- The polynomial tangent is always a unit vector: its pre-normalization
form has x-component 1, hence is nonzero, and the sign flip preserves the
norm. -/
theorem polyTanu_unit (p0 u1 u2 : Vec3) :
    Vec3.dot (polyTanu p0 u1 u2) (polyTanu p0 u1 u2) = 1 := by
  have hv : (⟨1, 2 * poly u1.x p0.x u2.x u1.y p0.y u2.y 0 * p0.x
      + poly u1.x p0.x u2.x u1.y p0.y u2.y 1, 0⟩ : Vec3) ≠ 0 := by
    intro h0
    have hx := congrArg Vec3.x h0
    simp at hx
  simp only [polyTanu]
  rw [Vec3.flip_dot]
  exact Vec3.normalize_dot_self hv

/-- Unfolding of `getFreneByPoly` into its four components. -/
theorem getFreneByPoly_eq (p0 u1 u2 v1 : Vec3) :
    getFreneByPoly p0 u1 u2 v1 =
      ⟨polyTanu p0 u1 u2,
        Vec3.normalize (Vec3.cross
          (Vec3.normalize (Vec3.cross (polyTanu p0 u1 u2) (Vec3.normalize (v1 - p0))))
          (polyTanu p0 u1 u2)),
        Vec3.normalize (Vec3.cross (polyTanu p0 u1 u2) (Vec3.normalize (v1 - p0))),
        p0⟩ := rfl

/-- With a nonzero tangent cross product the polynomial Frenet frame is
orthonormal with determinant 1. -/
theorem freneByPoly_orthonormal (p0 u1 u2 v1 : Vec3)
    (hcr : Vec3.cross (polyTanu p0 u1 u2) (Vec3.normalize (v1 - p0)) ≠ 0) :
    orthonormalTriad (getFreneByPoly p0 u1 u2 v1).t (getFreneByPoly p0 u1 u2 v1).b
        (getFreneByPoly p0 u1 u2 v1).n ∧
      rotDet (getFreneByPoly p0 u1 u2 v1).transf = 1 := by
  have ht := polyTanu_unit p0 u1 u2
  have hn : Vec3.dot
      (Vec3.normalize (Vec3.cross (polyTanu p0 u1 u2) (Vec3.normalize (v1 - p0))))
      (Vec3.normalize (Vec3.cross (polyTanu p0 u1 u2) (Vec3.normalize (v1 - p0)))) = 1 :=
    Vec3.normalize_dot_self hcr
  have hnt : Vec3.dot
      (Vec3.normalize (Vec3.cross (polyTanu p0 u1 u2) (Vec3.normalize (v1 - p0))))
      (polyTanu p0 u1 u2) = 0 := by
    rw [Vec3.dot_normalize_left, Vec3.cross_dot_left]
    ring
  have hcr2 : Vec3.dot
      (Vec3.cross (Vec3.normalize (Vec3.cross (polyTanu p0 u1 u2)
        (Vec3.normalize (v1 - p0)))) (polyTanu p0 u1 u2))
      (Vec3.cross (Vec3.normalize (Vec3.cross (polyTanu p0 u1 u2)
        (Vec3.normalize (v1 - p0)))) (polyTanu p0 u1 u2)) = 1 := by
    rw [Vec3.lagrange, hn, ht, hnt]
    norm_num
  have hb : Vec3.normalize (Vec3.cross (Vec3.normalize (Vec3.cross (polyTanu p0 u1 u2)
      (Vec3.normalize (v1 - p0)))) (polyTanu p0 u1 u2))
      = Vec3.cross (Vec3.normalize (Vec3.cross (polyTanu p0 u1 u2)
        (Vec3.normalize (v1 - p0)))) (polyTanu p0 u1 u2) :=
    Vec3.normalize_of_dot_one hcr2
  obtain ⟨htriad, hdet⟩ := triad_std ht hn hnt
  rw [getFreneByPoly_eq]
  constructor
  · simp only []
    rw [hb]
    exact htriad
  · show rotDet (poseMatrix (polyTanu p0 u1 u2) (Vec3.normalize (Vec3.cross
      (Vec3.normalize (Vec3.cross (polyTanu p0 u1 u2) (Vec3.normalize (v1 - p0))))
      (polyTanu p0 u1 u2)))
      (Vec3.normalize (Vec3.cross (polyTanu p0 u1 u2) (Vec3.normalize (v1 - p0)))) p0) = 1
    rw [hb, rotDet_pose]
    exact hdet

/-! The circular Frenet builder. -/

/-- Unfolding of `getFreneByCirc` into its four components. -/
theorem getFreneByCirc_eq (pt0 ptc : Vec3) :
    getFreneByCirc pt0 ptc =
      ⟨if (Vec3.normalize (circT0 pt0 ptc)).x < 0 then -Vec3.normalize (circT0 pt0 ptc)
          else Vec3.normalize (circT0 pt0 ptc),
        Vec3.cross (circN pt0 ptc)
          (if (Vec3.normalize (circT0 pt0 ptc)).x < 0 then -Vec3.normalize (circT0 pt0 ptc)
            else Vec3.normalize (circT0 pt0 ptc)),
        circN pt0 ptc, pt0⟩ := rfl

/-- With a nonzero radial vector and a nonzero in-plane perpendicular the
circular Frenet frame is orthonormal with determinant 1. -/
theorem freneByCirc_orthonormal (pt0 ptc : Vec3) (hr : pt0 - ptc ≠ 0)
    (ht0 : circT0 pt0 ptc ≠ 0) :
    orthonormalTriad (getFreneByCirc pt0 ptc).t (getFreneByCirc pt0 ptc).b
        (getFreneByCirc pt0 ptc).n ∧
      rotDet (getFreneByCirc pt0 ptc).transf = 1 := by
  have hn : Vec3.dot (circN pt0 ptc) (circN pt0 ptc) = 1 :=
    Vec3.normalize_dot_self hr
  have ht : Vec3.dot
      (if (Vec3.normalize (circT0 pt0 ptc)).x < 0 then -Vec3.normalize (circT0 pt0 ptc)
        else Vec3.normalize (circT0 pt0 ptc))
      (if (Vec3.normalize (circT0 pt0 ptc)).x < 0 then -Vec3.normalize (circT0 pt0 ptc)
        else Vec3.normalize (circT0 pt0 ptc)) = Vec3.dot
      (Vec3.normalize (circT0 pt0 ptc)) (Vec3.normalize (circT0 pt0 ptc)) :=
    Vec3.flip_dot (Vec3.normalize (circT0 pt0 ptc))
  rw [Vec3.normalize_dot_self ht0] at ht
  have hn0 : Vec3.dot (circN pt0 ptc) (circT0 pt0 ptc) = 0 := by
    simp [circT0, Vec3.dot]
    ring
  have hnt1 : Vec3.dot (circN pt0 ptc) (Vec3.normalize (circT0 pt0 ptc)) = 0 := by
    rw [Vec3.dot_normalize_right, hn0]
    ring
  have hnt : Vec3.dot (circN pt0 ptc)
      (if (Vec3.normalize (circT0 pt0 ptc)).x < 0 then -Vec3.normalize (circT0 pt0 ptc)
        else Vec3.normalize (circT0 pt0 ptc)) = 0 :=
    Vec3.flip_dot_right _ _ hnt1
  obtain ⟨htriad, hdet⟩ := triad_std ht hn hnt
  refine ⟨?_, ?_⟩
  · rw [getFreneByCirc_eq]
    exact htriad
  · rw [show (getFreneByCirc pt0 ptc).transf
        = poseMatrix (getFreneByCirc pt0 ptc).t (getFreneByCirc pt0 ptc).b
          (getFreneByCirc pt0 ptc).n (getFreneByCirc pt0 ptc).p from rfl,
      rotDet_pose]
    exact hdet

/-! Concrete evaluations used by the C4 counterexample and witness. -/

theorem normalize_e1 : Vec3.normalize ⟨1, 0, 0⟩ = (⟨1, 0, 0⟩ : Vec3) :=
  Vec3.normalize_of_dot_one (by simp [Vec3.dot])

theorem normalize_e2 : Vec3.normalize ⟨0, 1, 0⟩ = (⟨0, 1, 0⟩ : Vec3) :=
  Vec3.normalize_of_dot_one (by simp [Vec3.dot])

theorem normalize_zero : Vec3.normalize ⟨0, 0, 0⟩ = (⟨0, 0, 0⟩ : Vec3) := by
  rw [Vec3.normalize]
  refine Vec3.ext_comp ?_ ?_ ?_ <;> simp

/-- The polynomial tangent at the symmetric flat sample `(-1,0), (0,0),
(1,0)`: the quadratic fit is identically zero, the derivative vanishes,
and the tangent is the unit x-axis. -/
theorem polyTanu_eval : polyTanu ⟨0, 0, 0⟩ ⟨-1, 0, 0⟩ ⟨1, 0, 0⟩ = ⟨1, 0, 0⟩ := by
  have hcoef0 : poly (-1) 0 1 0 0 0 0 = 0 := by
    simp [poly, solve3, det3, replaceCol, polyM]
  have hcoef1 : poly (-1) 0 1 0 0 0 1 = 0 := by
    simp [poly, solve3, det3, replaceCol, polyM]
  simp only [polyTanu, Vec3.mk_x, Vec3.mk_y]
  rw [hcoef0, hcoef1]
  norm_num [normalize_e1]

theorem circN_eval : circN ⟨1, 0, 0⟩ ⟨0, 0, 0⟩ = ⟨1, 0, 0⟩ := by
  rw [circN, show (⟨1, 0, 0⟩ : Vec3) - ⟨0, 0, 0⟩ = ⟨1, 0, 0⟩ from by
    refine Vec3.ext_comp ?_ ?_ ?_ <;> simp]
  exact normalize_e1

/-! Claim C4. -/

/-- C4 counterexample: at the degenerate input `p0 = (0,0,0)`,
`u1 = (-1,0,0)`, `u2 = (1,0,0)`, `v1 = (1,0,0)` the second tangent of
`getFreneByPoly` is parallel to the first, their cross product is the
zero vector, and the builder still produces a frame: its normal and
binormal are not unit vectors (here the zero vector; the C++ code
normalizes the zero vector and produces NaN components — under either
semantics they are not unit length) and the rotation-block determinant is
`0`, not within `1e-9` of `+1`. -/
theorem C4_counterexample :
    Vec3.dot (getFreneByPoly ⟨0, 0, 0⟩ ⟨-1, 0, 0⟩ ⟨1, 0, 0⟩ ⟨1, 0, 0⟩).n
        (getFreneByPoly ⟨0, 0, 0⟩ ⟨-1, 0, 0⟩ ⟨1, 0, 0⟩ ⟨1, 0, 0⟩).n = 0 ∧
      rotDet (getFreneByPoly ⟨0, 0, 0⟩ ⟨-1, 0, 0⟩ ⟨1, 0, 0⟩ ⟨1, 0, 0⟩).transf = 0 ∧
      ¬|rotDet (getFreneByPoly ⟨0, 0, 0⟩ ⟨-1, 0, 0⟩ ⟨1, 0, 0⟩ ⟨1, 0, 0⟩).transf - 1|
          ≤ 1 / 1000000000 := by
  have hsub : (⟨1, 0, 0⟩ : Vec3) - ⟨0, 0, 0⟩ = ⟨1, 0, 0⟩ := by
    refine Vec3.ext_comp ?_ ?_ ?_ <;> simp
  have hcrossz : Vec3.cross (⟨1, 0, 0⟩ : Vec3) ⟨1, 0, 0⟩ = ⟨0, 0, 0⟩ := by
    refine Vec3.ext_comp ?_ ?_ ?_ <;> simp [Vec3.cross]
  have hcr0 : Vec3.cross (⟨0, 0, 0⟩ : Vec3) ⟨1, 0, 0⟩ = ⟨0, 0, 0⟩ := by
    refine Vec3.ext_comp ?_ ?_ ?_ <;> simp [Vec3.cross]
  have hfr : getFreneByPoly ⟨0, 0, 0⟩ ⟨-1, 0, 0⟩ ⟨1, 0, 0⟩ ⟨1, 0, 0⟩
      = ⟨⟨1, 0, 0⟩, ⟨0, 0, 0⟩, ⟨0, 0, 0⟩, ⟨0, 0, 0⟩⟩ := by
    rw [getFreneByPoly_eq, polyTanu_eval, hsub, normalize_e1, hcrossz, normalize_zero,
      hcr0, normalize_zero]
  rw [hfr]
  refine ⟨by simp [Vec3.dot], ?_, ?_⟩
  · rw [show (Frene.mk ⟨1, 0, 0⟩ ⟨0, 0, 0⟩ ⟨0, 0, 0⟩ ⟨0, 0, 0⟩).transf
        = poseMatrix ⟨1, 0, 0⟩ ⟨0, 0, 0⟩ ⟨0, 0, 0⟩ ⟨0, 0, 0⟩ from rfl, rotDet_pose]
    simp [Vec3.dot, Vec3.cross]
  · rw [show (Frene.mk ⟨1, 0, 0⟩ ⟨0, 0, 0⟩ ⟨0, 0, 0⟩ ⟨0, 0, 0⟩).transf
        = poseMatrix ⟨1, 0, 0⟩ ⟨0, 0, 0⟩ ⟨0, 0, 0⟩ ⟨0, 0, 0⟩ from rfl, rotDet_pose]
    simp [Vec3.dot, Vec3.cross]
    norm_num

/-- C4 amended: the belt-frame triad is exactly orthonormal with
rotation-block determinant exactly `+1` for every input; the polynomial
and circular Frenet triads are exactly orthonormal with determinant
exactly `+1` for every non-degenerate input (nonzero cross product of the
two tangents for the polynomial builder; nonzero radial vector and
nonzero in-plane perpendicular for the circular builder).  Exact equality
implies the claim's `1e-9` tolerances. -/
theorem C4_amended :
    (∀ (o : Vec3) (n : ℕ) (x y z : Fin n → ℝ),
        orthonormalTriad (beltT x y z) (beltB x y z) (beltN x y z) ∧
          rotDet (getBeltFrame o x y z).transform = 1) ∧
      (∀ p0 u1 u2 v1 : Vec3,
        Vec3.cross (polyTanu p0 u1 u2) (Vec3.normalize (v1 - p0)) ≠ 0 →
          orthonormalTriad (getFreneByPoly p0 u1 u2 v1).t
              (getFreneByPoly p0 u1 u2 v1).b (getFreneByPoly p0 u1 u2 v1).n ∧
            rotDet (getFreneByPoly p0 u1 u2 v1).transf = 1) ∧
      (∀ pt0 ptc : Vec3, pt0 - ptc ≠ 0 → circT0 pt0 ptc ≠ 0 →
        orthonormalTriad (getFreneByCirc pt0 ptc).t (getFreneByCirc pt0 ptc).b
            (getFreneByCirc pt0 ptc).n ∧
          rotDet (getFreneByCirc pt0 ptc).transf = 1) :=
  ⟨fun o _ x y z => beltFrame_orthonormal o x y z,
    fun p0 u1 u2 v1 hcr => freneByPoly_orthonormal p0 u1 u2 v1 hcr,
    fun pt0 ptc hr ht0 => freneByCirc_orthonormal pt0 ptc hr ht0⟩

/-- C4 witness: the amended theorem applied at concrete non-degenerate
inputs of all three builders, with every hypothesis discharged. -/
theorem C4_witness :
    Vec3.cross (polyTanu ⟨0, 0, 0⟩ ⟨-1, 0, 0⟩ ⟨1, 0, 0⟩)
        (Vec3.normalize ((⟨0, 1, 0⟩ : Vec3) - ⟨0, 0, 0⟩)) ≠ 0 ∧
      (⟨1, 0, 0⟩ : Vec3) - ⟨0, 0, 0⟩ ≠ 0 ∧
      circT0 ⟨1, 0, 0⟩ ⟨0, 0, 0⟩ ≠ 0 ∧
      rotDet (getFreneByPoly ⟨0, 0, 0⟩ ⟨-1, 0, 0⟩ ⟨1, 0, 0⟩ ⟨0, 1, 0⟩).transf = 1 ∧
      rotDet (getFreneByCirc ⟨1, 0, 0⟩ ⟨0, 0, 0⟩).transf = 1 ∧
      rotDet (getBeltFrame ⟨0, 0, 0⟩ ![0, 1, 0] ![0, 0, 1] ![3, 4, 5]).transform = 1 := by
  have h1 : Vec3.cross (polyTanu ⟨0, 0, 0⟩ ⟨-1, 0, 0⟩ ⟨1, 0, 0⟩)
      (Vec3.normalize ((⟨0, 1, 0⟩ : Vec3) - ⟨0, 0, 0⟩)) ≠ 0 := by
    rw [polyTanu_eval, show (⟨0, 1, 0⟩ : Vec3) - ⟨0, 0, 0⟩ = ⟨0, 1, 0⟩ from by
      refine Vec3.ext_comp ?_ ?_ ?_ <;> simp, normalize_e2]
    intro h0
    have hz := congrArg Vec3.z h0
    simp [Vec3.cross] at hz
  have h2 : (⟨1, 0, 0⟩ : Vec3) - ⟨0, 0, 0⟩ ≠ 0 := by
    intro h0
    have hx := congrArg Vec3.x h0
    simp at hx
  have h3 : circT0 ⟨1, 0, 0⟩ ⟨0, 0, 0⟩ ≠ 0 := by
    rw [circT0, circN_eval]
    intro h0
    have hy := congrArg Vec3.y h0
    simp at hy
  exact ⟨h1, h2, h3, (C4_amended.2.1 _ _ _ _ h1).2,
    (C4_amended.2.2 _ _ h2 h3).2,
    (C4_amended.1 ⟨0, 0, 0⟩ 3 ![0, 1, 0] ![0, 0, 1] ![3, 4, 5]).2⟩

/-! Claims C5, C6 and C8: the construction steps of the frame builders. -/

/-- The sign fix `if x < 0 then -v else v` always leaves a non-negative
x-component. -/
theorem Vec3.flip_x_nonneg (v : Vec3) : 0 ≤ (if v.x < 0 then -v else v).x := by
  by_cases h : v.x < 0
  · simp [h]
    linarith
  · simp [h]
    linarith [not_lt.mp h]

/-- C5: in `getBeltFrame`, with `n` the normalized plane normal, the
helper axis is world X when `|n.x| < 0.9` and world Y otherwise; the
first tangent is the negation of the normalized projection of the helper
onto the plane orthogonal to `n`; the binormal is the normalized
`n × tangent`; and the final tangent is re-derived as `binormal × n`,
these four vectors being exactly the columns of the assembled pose. -/
theorem C5_beltFrame_steps (o : Vec3) {n : ℕ} (x y z : Fin n → ℝ) :
    beltN x y z = Vec3.normalize ⟨(pointsToPlane x y z).A, (pointsToPlane x y z).B,
        (pointsToPlane x y z).C⟩ ∧
      beltHelper x y z
        = (if |(Vec3.normalize ⟨(pointsToPlane x y z).A, (pointsToPlane x y z).B,
            (pointsToPlane x y z).C⟩).x| < 9 / 10 then (⟨1, 0, 0⟩ : Vec3) else ⟨0, 1, 0⟩) ∧
      beltT2 x y z = -(Vec3.normalize (beltHelper x y z
          - Vec3.dot (beltHelper x y z) (beltN x y z) • beltN x y z)) ∧
      beltB x y z = Vec3.normalize (Vec3.cross (beltN x y z) (beltT2 x y z)) ∧
      beltT x y z = Vec3.cross (beltB x y z) (beltN x y z) ∧
      (getBeltFrame o x y z).transform
        = poseMatrix (beltT x y z) (beltB x y z) (beltN x y z) o :=
  ⟨rfl, rfl, rfl, rfl, rfl, rfl⟩

/-- C6: the Euler angles of the belt frame 6-vector are extracted from
the rotation block of the pose as `A = atan2(R10,R00)`, `B = asin(-R20)`,
`C = atan2(R21,R22)`, each converted from radians to degrees, and the
first three components equal the origin stored in the translation column
of the pose. -/
theorem C6_euler_extraction (o : Vec3) {n : ℕ} (x y z : Fin n → ℝ) :
    (getBeltFrame o x y z).frame 3
        = atan2 ((getBeltFrame o x y z).transform 1 0)
            ((getBeltFrame o x y z).transform 0 0) * (180 / Real.pi) ∧
      (getBeltFrame o x y z).frame 4
        = Real.arcsin (-((getBeltFrame o x y z).transform 2 0)) * (180 / Real.pi) ∧
      (getBeltFrame o x y z).frame 5
        = atan2 ((getBeltFrame o x y z).transform 2 1)
            ((getBeltFrame o x y z).transform 2 2) * (180 / Real.pi) ∧
      (getBeltFrame o x y z).frame 0 = o.x ∧
      (getBeltFrame o x y z).frame 1 = o.y ∧
      (getBeltFrame o x y z).frame 2 = o.z ∧
      (getBeltFrame o x y z).transform 0 3 = o.x ∧
      (getBeltFrame o x y z).transform 1 3 = o.y ∧
      (getBeltFrame o x y z).transform 2 3 = o.z :=
  ⟨rfl, rfl, rfl, rfl, rfl, rfl, rfl, rfl, rfl⟩

/-- C8: in `getFreneByPoly` the quadratic is fitted through the x/y
components of the samples in the order `(u1, p0, u2)`; the tangent is the
normalization of `(1, 2a·p0.x + b, 0)` — the fit's derivative at
`x = p0.x` — flipped when its x-component is negative, so the frame's
tangent always has non-negative x-component; the normal is the normalized
cross product of this tangent with the normalized direction from `p0`
to `v1`; the binormal is the normalized `normal × tangent`; and the frame
origin is `p0`. -/
theorem C8_freneByPoly_construction (p0 u1 u2 v1 : Vec3) :
    (getFreneByPoly p0 u1 u2 v1).t
        = (if (Vec3.normalize ⟨1, 2 * poly u1.x p0.x u2.x u1.y p0.y u2.y 0 * p0.x
              + poly u1.x p0.x u2.x u1.y p0.y u2.y 1, 0⟩).x < 0
            then -Vec3.normalize ⟨1, 2 * poly u1.x p0.x u2.x u1.y p0.y u2.y 0 * p0.x
              + poly u1.x p0.x u2.x u1.y p0.y u2.y 1, 0⟩
            else Vec3.normalize ⟨1, 2 * poly u1.x p0.x u2.x u1.y p0.y u2.y 0 * p0.x
              + poly u1.x p0.x u2.x u1.y p0.y u2.y 1, 0⟩) ∧
      0 ≤ (getFreneByPoly p0 u1 u2 v1).t.x ∧
      (getFreneByPoly p0 u1 u2 v1).n
        = Vec3.normalize (Vec3.cross (getFreneByPoly p0 u1 u2 v1).t
            (Vec3.normalize (v1 - p0))) ∧
      (getFreneByPoly p0 u1 u2 v1).b
        = Vec3.normalize (Vec3.cross (getFreneByPoly p0 u1 u2 v1).n
            (getFreneByPoly p0 u1 u2 v1).t) ∧
      (getFreneByPoly p0 u1 u2 v1).p = p0 := by
  refine ⟨rfl, ?_, rfl, rfl, rfl⟩
  exact Vec3.flip_x_nonneg
    (Vec3.normalize ⟨1, 2 * poly u1.x p0.x u2.x u1.y p0.y u2.y 0 * p0.x
      + poly u1.x p0.x u2.x u1.y p0.y u2.y 1, 0⟩)

/-! Claims C7, C9 and C10: the rotation builder and its snap pass. -/

/-- C7: `rotMatrix4x4` builds the standard right-handed rotation matrix
for each named axis with the angle converted from degrees to radians,
then applies the snap pass, and in the returned matrix every entry of
absolute value at most `1e-4` is exactly `0`. -/
theorem C7_rot_standard_snap (a : ℝ) :
    rotMatrix4x4 a 'x' = snap (specRotX (a * Real.pi / 180)) ∧
      rotMatrix4x4 a 'y' = snap (specRotY (a * Real.pi / 180)) ∧
      rotMatrix4x4 a 'z' = snap (specRotZ (a * Real.pi / 180)) ∧
      (∀ (axis : Char) (i j : Fin 4),
        |rotMatrix4x4 a axis i j| ≤ EPS → rotMatrix4x4 a axis i j = 0) := by
  refine ⟨rfl, rfl, rfl, ?_⟩
  intro axis i j h
  by_cases hc : |rotBase (a * Real.pi / 180) axis i j| ≤ EPS
  · show snap (rotBase (a * Real.pi / 180) axis) i j = 0
    simp [snap, hc]
  · have heq : rotMatrix4x4 a axis i j = rotBase (a * Real.pi / 180) axis i j := by
      simp [rotMatrix4x4, snap, hc]
    rw [heq] at h
    exact absurd h hc

/-- C7 witness: the (0,0) entry of the 90° z-rotation is an analytic zero
(`cos 90° = 0`), satisfies the snap bound, and the theorem makes it
exactly `0`. -/
theorem C7_witness :
    |rotMatrix4x4 90 'z' 0 0| ≤ EPS ∧ rotMatrix4x4 90 'z' 0 0 = 0 := by
  have hc : Real.cos ((90 : ℝ) * Real.pi / 180) = 0 := by
    rw [show (90 : ℝ) * Real.pi / 180 = Real.pi / 2 from by ring, Real.cos_pi_div_two]
  have hentry : rotMatrix4x4 90 'z' 0 0 = 0 := by
    show snap (rotBase ((90 : ℝ) * Real.pi / 180) 'z') 0 0 = 0
    simp [snap, rotBase, hc, EPS]
  have habs : |rotMatrix4x4 90 'z' 0 0| ≤ EPS := by
    rw [hentry]
    simp [EPS]
  exact ⟨habs, (C7_rot_standard_snap 90).2.2.2 'z' 0 0 habs⟩

/-- C9 counterexample: `angleDeg = 360` is a nonzero angle whose sine is
`0` (within the snap bound) and whose cosine `1` exceeds the bound — it
satisfies every antecedent of the claim — yet the diagonal cosine entries
of the returned matrix equal `1` (they do not differ from 1) and the
rotation block is the identity with determinant `1`, not `cos² < 1`. -/
theorem C9_counterexample :
    (360 : ℝ) ≠ 0 ∧
      |Real.sin ((360 : ℝ) * Real.pi / 180)| ≤ EPS ∧
      EPS < Real.cos ((360 : ℝ) * Real.pi / 180) ∧
      rotMatrix4x4 360 'z' 0 0 = 1 ∧
      rotMatrix4x4 360 'z' 1 1 = 1 ∧
      rotDet (rotMatrix4x4 360 'z') = 1 := by
  have hs : Real.sin ((360 : ℝ) * Real.pi / 180) = 0 := by
    rw [show (360 : ℝ) * Real.pi / 180 = 2 * Real.pi from by ring, Real.sin_two_pi]
  have hc : Real.cos ((360 : ℝ) * Real.pi / 180) = 1 := by
    rw [show (360 : ℝ) * Real.pi / 180 = 2 * Real.pi from by ring, Real.cos_two_pi]
  refine ⟨by norm_num, by rw [hs]; norm_num [EPS], by rw [hc]; norm_num [EPS], ?_, ?_, ?_⟩
  · simp [rotMatrix4x4, rotBase, snap, hs, hc, EPS, Matrix.vecHead, Matrix.vecTail]
    norm_num
  · simp [rotMatrix4x4, rotBase, snap, hs, hc, EPS, Matrix.vecHead, Matrix.vecTail]
    norm_num
  · simp [rotDet, rotMatrix4x4, rotBase, snap, hs, hc, EPS, Matrix.vecHead, Matrix.vecTail]
    norm_num

/-- C9 amended: for every angle whose sine (in radians) has absolute
value at most `1e-4`, whose cosine exceeds `1e-4`, and whose cosine is
different from `1` (the nonzero angles of the claim minus the full turns,
where the cosine is `1` and the matrix is an exact rotation), the
returned matrix has all off-diagonal rotation entries exactly `0`, its
two diagonal cosine entries equal `cos θ ≠ 1`, and the rotation-block
determinant is `cos² θ < 1`, so the block is not orthonormal. -/
theorem C9_amended (angleDeg : ℝ)
    (hs : |Real.sin (angleDeg * Real.pi / 180)| ≤ EPS)
    (hc : EPS < Real.cos (angleDeg * Real.pi / 180))
    (h1 : Real.cos (angleDeg * Real.pi / 180) ≠ 1) :
    rotMatrix4x4 angleDeg 'x'
        = ![![1, 0, 0, 0], ![0, Real.cos (angleDeg * Real.pi / 180), 0, 0],
            ![0, 0, Real.cos (angleDeg * Real.pi / 180), 0], ![0, 0, 0, 1]] ∧
      rotMatrix4x4 angleDeg 'y'
        = ![![Real.cos (angleDeg * Real.pi / 180), 0, 0, 0], ![0, 1, 0, 0],
            ![0, 0, Real.cos (angleDeg * Real.pi / 180), 0], ![0, 0, 0, 1]] ∧
      rotMatrix4x4 angleDeg 'z'
        = ![![Real.cos (angleDeg * Real.pi / 180), 0, 0, 0],
            ![0, Real.cos (angleDeg * Real.pi / 180), 0, 0],
            ![0, 0, 1, 0], ![0, 0, 0, 1]] ∧
      rotDet (rotMatrix4x4 angleDeg 'x') = Real.cos (angleDeg * Real.pi / 180) ^ 2 ∧
      rotDet (rotMatrix4x4 angleDeg 'y') = Real.cos (angleDeg * Real.pi / 180) ^ 2 ∧
      rotDet (rotMatrix4x4 angleDeg 'z') = Real.cos (angleDeg * Real.pi / 180) ^ 2 ∧
      Real.cos (angleDeg * Real.pi / 180) ^ 2 < 1 ∧
      Real.cos (angleDeg * Real.pi / 180) ≠ 1 := by
  have hepos : (0 : ℝ) < EPS := by norm_num [EPS]
  have hcpos : 0 < Real.cos (angleDeg * Real.pi / 180) := lt_trans hepos hc
  have hc0 : ¬(|Real.cos (angleDeg * Real.pi / 180)| ≤ EPS) := by
    rw [abs_of_pos hcpos]
    exact not_le.mpr hc
  have hs2 : |(-Real.sin (angleDeg * Real.pi / 180))| ≤ EPS := by
    rw [abs_neg]; exact hs
  have h10 : ¬(|(1 : ℝ)| ≤ EPS) := by norm_num [EPS]
  have h00 : |(0 : ℝ)| ≤ EPS := by norm_num [EPS]
  have hmx : rotMatrix4x4 angleDeg 'x'
      = ![![1, 0, 0, 0], ![0, Real.cos (angleDeg * Real.pi / 180), 0, 0],
          ![0, 0, Real.cos (angleDeg * Real.pi / 180), 0], ![0, 0, 0, 1]] := by
    funext i j
    fin_cases i <;> fin_cases j <;>
      simp [rotMatrix4x4, rotBase, snap, hc0, hs, hs2, h10, h00,
        Matrix.vecHead, Matrix.vecTail] <;> norm_num [EPS]
  have hmy : rotMatrix4x4 angleDeg 'y'
      = ![![Real.cos (angleDeg * Real.pi / 180), 0, 0, 0], ![0, 1, 0, 0],
          ![0, 0, Real.cos (angleDeg * Real.pi / 180), 0], ![0, 0, 0, 1]] := by
    funext i j
    fin_cases i <;> fin_cases j <;>
      simp [rotMatrix4x4, rotBase, snap, hc0, hs, hs2, h10, h00,
        Matrix.vecHead, Matrix.vecTail] <;> norm_num [EPS]
  have hmz : rotMatrix4x4 angleDeg 'z'
      = ![![Real.cos (angleDeg * Real.pi / 180), 0, 0, 0],
          ![0, Real.cos (angleDeg * Real.pi / 180), 0, 0],
          ![0, 0, 1, 0], ![0, 0, 0, 1]] := by
    funext i j
    fin_cases i <;> fin_cases j <;>
      simp [rotMatrix4x4, rotBase, snap, hc0, hs, hs2, h10, h00,
        Matrix.vecHead, Matrix.vecTail] <;> norm_num [EPS]
  have hc1 : Real.cos (angleDeg * Real.pi / 180) ≤ 1 := Real.cos_le_one _
  have hclt : Real.cos (angleDeg * Real.pi / 180) ^ 2 < 1 := by
    have hlt : Real.cos (angleDeg * Real.pi / 180) < 1 := lt_of_le_of_ne hc1 h1
    nlinarith
  refine ⟨hmx, hmy, hmz, ?_, ?_, ?_, hclt, h1⟩
  · rw [hmx]
    simp [rotDet, Matrix.vecHead, Matrix.vecTail]
    ring
  · rw [hmy]
    simp [rotDet, Matrix.vecHead, Matrix.vecTail]
    ring
  · rw [hmz]
    simp [rotDet, Matrix.vecHead, Matrix.vecTail]
    ring

/-- C9 witness: the amended theorem applied at the angle whose radian
measure is exactly `1/10000`; all three hypotheses are discharged there
and the z-rotation block has determinant `cos² < 1`. -/
theorem C9_witness :
    |Real.sin (9 / (500 * Real.pi) * Real.pi / 180)| ≤ EPS ∧
      EPS < Real.cos (9 / (500 * Real.pi) * Real.pi / 180) ∧
      Real.cos (9 / (500 * Real.pi) * Real.pi / 180) ≠ 1 ∧
      rotDet (rotMatrix4x4 (9 / (500 * Real.pi)) 'z')
        = Real.cos (9 / (500 * Real.pi) * Real.pi / 180) ^ 2 ∧
      Real.cos (9 / (500 * Real.pi) * Real.pi / 180) ^ 2 < 1 := by
  have hpne := Real.pi_ne_zero
  have harg : 9 / (500 * Real.pi) * Real.pi / 180 = 1 / 10000 := by
    field_simp
    ring
  have hx1 : (0 : ℝ) < 1 / 10000 := by norm_num
  have hpi : (1 : ℝ) / 10000 < Real.pi := lt_trans (by norm_num) Real.pi_gt_three
  have hsinpos : 0 < Real.sin (1 / 10000) := Real.sin_pos_of_pos_of_lt_pi hx1 hpi
  have hsinlt : Real.sin (1 / 10000) < 1 / 10000 := Real.sin_lt hx1
  have hs : |Real.sin (9 / (500 * Real.pi) * Real.pi / 180)| ≤ EPS := by
    rw [harg, abs_of_pos hsinpos, EPS]
    linarith
  have hcoslow : Real.cos (Real.pi / 3) < Real.cos (1 / 10000) := by
    have h3 : (1 : ℝ) / 10000 < Real.pi / 3 := by
      have := Real.pi_gt_three
      linarith
    refine Real.strictAntiOn_cos ⟨le_of_lt hx1, le_of_lt hpi⟩
      ⟨by positivity, by linarith [Real.pi_pos]⟩ h3
  have hc : EPS < Real.cos (9 / (500 * Real.pi) * Real.pi / 180) := by
    rw [harg, EPS]
    rw [Real.cos_pi_div_three] at hcoslow
    linarith
  have h1 : Real.cos (9 / (500 * Real.pi) * Real.pi / 180) ≠ 1 := by
    rw [harg]
    intro hone
    have hpyth := Real.sin_sq_add_cos_sq (1 / 10000)
    rw [hone] at hpyth
    nlinarith
  obtain ⟨_, _, _, _, _, hdz, hlt, _⟩ := C9_amended (9 / (500 * Real.pi)) hs hc h1
  exact ⟨hs, hc, h1, hdz, hlt⟩

/-- C10: for every angle and every axis character other than x, y, z,
`rotMatrix4x4` silently returns the 4x4 identity matrix (the switch falls
through and the snap pass leaves the identity unchanged). -/
theorem C10_unknown_axis_identity (a : ℝ) (c : Char)
    (hx : c ≠ 'x') (hy : c ≠ 'y') (hz : c ≠ 'z') :
    rotMatrix4x4 a c = id4 := by
  have hbase : rotBase (a * Real.pi / 180) c = id4 := by
    rw [rotBase, if_neg hx, if_neg hy, if_neg hz]
  show snap (rotBase (a * Real.pi / 180) c) = id4
  rw [hbase]
  funext i j
  fin_cases i <;> fin_cases j <;>
    simp [snap, id4, EPS, Matrix.vecHead, Matrix.vecTail] <;> norm_num

/-- C10 witness: the axis character `w` is not recognized and yields the
identity. -/
theorem C10_witness : rotMatrix4x4 45 'w' = id4 :=
  C10_unknown_axis_identity 45 'w' (by decide) (by decide) (by decide)

end Linalg

end
